import Mathlib

/-!
# LiveTranscribe — verification of the Multi-Tier Speculative Transcription Engine

Shallow embedding of the segment merge engine, the draft-token protocol,
the speculative verifier and the orchestrator lifecycle of the
LiveTranscribe repository (`src/unnamed/part_002` = the `Transcriber`
class, and `src/live-transcribe-web/src/workers/inference.worker.js`).

Times are modelled as rationals (JS numbers), tokens as integers,
levels as naturals.  JS `Array.prototype.sort` with the comparator
`(a, b) => a.start - b.start` is a stable sort by start time (stability
is guaranteed by the ECMAScript specification); it is modelled by
`List.insertionSort`, which is stable for the total preorder
`a.start ≤ b.start`.  The overlap threshold `0.1` is written
`mkRat 1 10`.
-/

namespace LiveTranscribe

/-! ## Data model: segments and the transcript (`Transcriber.segments`) -/

/-- A transcript segment as stored in `Transcriber.segments`:
`{ start, end, text, level, isSeparator }`.  The `end` field is named
`end_s` because `end` is a Lean keyword. -/
structure Segment where
  start : ℚ
  end_s : ℚ
  text : String
  level : ℕ
  isSeparator : Bool
deriving DecidableEq, Repr

/-- `overlap` as computed in `Transcriber.mergeSegment`:
`Math.min(s.end, n.end) - Math.max(s.start, n.start)`. -/
def overlapQ (s n : Segment) : ℚ :=
  min s.end_s n.end_s - max s.start n.start

/-- The overlap threshold `0.1` used by `mergeSegment`. -/
def eps : ℚ := mkRat 1 10

/-- The filter predicate (returns `true` = keep) applied to each existing
segment `s` in the first phase of `Transcriber.mergeSegment`:
separators are always kept; on overlap `> 0.1` a segment survives
iff its level is strictly higher than the new segment's. -/
def keepSegment (n s : Segment) : Bool :=
  if s.isSeparator then true
  else if eps < overlapQ s n then
    if n.level < s.level then true else false
  else true

/-- The `coveredByBetter` check of `Transcriber.mergeSegment`: some
remaining non-separator segment overlaps the new one by more than `0.1`
and has strictly higher level. -/
def coveredByBetter (n : Segment) (segs : List Segment) : Bool :=
  segs.any fun s =>
    if s.isSeparator then false
    else decide (eps < overlapQ s n) && decide (n.level < s.level)

/-- The stable sort by `start` performed by
`this.segments.sort((a, b) => a.start - b.start)`. -/
def sortByStart (segs : List Segment) : List Segment :=
  segs.insertionSort fun a b => a.start ≤ b.start

/-- `Transcriber.mergeSegment`: returns the new segment list together
with a flag telling whether `emitUpdate()` was called for this
insertion (it is called exactly when the new segment is not rejected). -/
def mergeSegment (segs : List Segment) (n : Segment) : List Segment × Bool :=
  let filtered := segs.filter (keepSegment n)
  if coveredByBetter n filtered then (filtered, false)
  else (sortByStart (filtered ++ [n]), true)

/-- The transcript after `Transcriber.mergeSegment` (first component). -/
def mergeSeg (segs : List Segment) (n : Segment) : List Segment :=
  (mergeSegment segs n).1

/-- The transcript obtained from the empty initial transcript by a
sequence of insertions through the merge engine. -/
def mergeAll (ns : List Segment) : List Segment :=
  ns.foldl mergeSeg []

/-- The insertion procedure exactly as §4.5 of the spec words it:
1. remove every non-separator segment `s` with `overlap(s, n) > ε` and
   `s.level ≤ n.level`; 2. if a non-separator segment `s` remains with
   `overlap(s, n) > ε` and `s.level > n.level`, reject `n`; 3. otherwise
   insert `n` and re-sort by start time.  Separators are never considered
   in the overlap tests and never removed. -/
def specInsert (segs : List Segment) (n : Segment) : List Segment × Bool :=
  let remaining := segs.filter fun s =>
    !(!s.isSeparator && decide (eps < overlapQ s n) && decide (s.level ≤ n.level))
  if remaining.any (fun s =>
      !s.isSeparator && decide (eps < overlapQ s n) && decide (n.level < s.level)) then
    (remaining, false)
  else
    (sortByStart (remaining ++ [n]), true)

/-- The transcript invariant of §8: sorted by start time, and no two
non-separator segments overlap by more than `ε`. -/
def TranscriptInv (segs : List Segment) : Prop :=
  segs.Sorted (fun a b => a.start ≤ b.start) ∧
    segs.Pairwise (fun a b => a.isSeparator = false → b.isSeparator = false →
      overlapQ a b ≤ eps)

/-! ## Orchestrator: commit (`Transcriber.commitAndReset`) and draft routing
(`Transcriber.handleWorkerMessage`) -/

/-- The transcript part of `Transcriber.commitAndReset`: when the segment
list is non-empty, a separator segment pinned at the last segment's end
time is appended; an empty list is left unchanged. -/
def commitSegments (segs : List Segment) : List Segment :=
  match segs.getLast? with
  | some s => segs ++ [{ start := s.end_s, end_s := s.end_s, text := "---",
                         level := 0, isSeparator := true }]
  | none => segs

/-- Draft-token routing decision of `Transcriber.handleWorkerMessage` for a
`segment` message: tokens from level `k` are forwarded iff they are
present, the level field is truthy, `k + 1 === 2`, and a worker with
level `2` exists.  Returns the level of the worker that receives the
`draft_tokens` message, if any. -/
def segmentDraftDispatch (workerLevels : List ℕ) (level : ℕ) (hasTokens : Bool) :
    Option ℕ :=
  if hasTokens ∧ level ≠ 0 then
    if level + 1 = 2 ∧ 2 ∈ workerLevels then some 2 else none
  else none

/-! ## Orchestrator: worker crash handling
(`Transcriber.handleWorkerError` / `Transcriber.restartWorker`) -/

/-- The per-worker configuration stored in `Transcriber.workerConfigs`
at creation time (`{ config, language, backend, model, quant }`). -/
structure StoredConfig where
  level : ℕ
  language : String
  backend : String
  model : String
  quant : Option String
deriving DecidableEq, Repr

/-- A live worker handle together with the configuration it was
started with. -/
structure WorkerHandle where
  level : ℕ
  cfg : StoredConfig
deriving DecidableEq, Repr

/-- The orchestrator state relevant to crash recovery: the worker list
and the stored configurations. -/
structure OrchState where
  workers : List WorkerHandle
  workerConfigs : ℕ → Option StoredConfig

/-- `Transcriber.restartWorker`: terminate and remove the first worker
with the crashed level, then, if a configuration is stored for that
level, create a new worker from it.  Returns the new state and the
configuration used for the restart (`none` = no restart happened). -/
def restartWorker (st : OrchState) (level : ℕ) : OrchState × Option StoredConfig :=
  let removed := st.workers.eraseP fun w => w.level == level
  match st.workerConfigs level with
  | none => ({ st with workers := removed }, none)
  | some c => ({ st with workers := removed ++ [⟨level, c⟩] }, some c)

/-- `Transcriber.handleWorkerError`: every uncaught worker error leads
directly to `restartWorker`. -/
def handleWorkerError (st : OrchState) (level : ℕ) : OrchState × Option StoredConfig :=
  restartWorker st level

/-- The restart actions produced by `n` successive crashes of the same
tier. -/
def crashTrace (st : OrchState) (level : ℕ) : ℕ → List (Option StoredConfig)
  | 0 => []
  | n + 1 =>
    let r := handleWorkerError st level
    r.2 :: crashTrace r.1 level n

/-! ## Tier worker: state and the `commit` message branch
(`inference.worker.js`, `self.onmessage`) -/

/-- The mutable worker state relevant to `commit`: the audio buffer,
the draft-token accumulator and the processed-prefix counter. -/
structure WorkerState where
  audioBuffer : List ℚ
  currentDraftTokens : List ℤ
  processedSamples : ℕ
deriving DecidableEq, Repr

/-- The `commit` branch of the worker's `onmessage`: the audio buffer is
replaced by an empty one, the draft tokens are cleared, and
`processedSamples` is deliberately not reset (the worker also posts a
`reset` message, not modelled). -/
def workerCommit (st : WorkerState) : WorkerState :=
  { st with audioBuffer := [], currentDraftTokens := [] }

/-! ## Tier worker: the `draft_tokens` message branch -/

/-- A token is a header token iff `50257 ≤ t < 50364` (timestamp tokens
`≥ 50364` are content). -/
def isHeaderToken (t : ℤ) : Bool :=
  decide (50257 ≤ t) && decide (t < 50364)

/-- The header stripping performed on a chunk appended to a non-empty
draft buffer: the maximal leading run of header tokens is dropped (the
`while` loop breaks at the first token `< 50257` or `≥ 50364`). -/
def stripHeader (tokens : List ℤ) : List ℤ :=
  tokens.dropWhile isHeaderToken

/-- The `draft_tokens` branch of the worker's `onmessage`: empty updates
are ignored; a level-2 worker replaces its buffer; any other worker
appends, stripping header tokens from the new chunk unless the buffer
is still empty. -/
def draftTokensUpdate (level : ℕ) (buf tokens : List ℤ) : List ℤ :=
  if tokens = [] then buf
  else if level = 2 then tokens
  else if buf = [] then buf ++ tokens
  else buf ++ stripHeader tokens

/-! ## Speculative verifier (`verifyDraftTokens`) -/

/-- Result record of `verifyDraftTokens`. -/
structure VerifyResult where
  verifiedTokens : List ℤ
  hitRate : ℚ
  verifiedCount : ℤ
  totalCount : ℤ
deriving DecidableEq, Repr

/-- The inner argmax scan of `verifyDraftTokens`: starting from
`maxVal = -Infinity`, `maxIdx = -1`, each strictly larger value takes
over, so the first occurrence of the maximum wins. -/
def argmaxAux : List ℚ → ℤ → ℚ → ℤ → ℤ
  | [], _, _, best => best
  | v :: rest, i, bv, bi =>
    if bv < v then argmaxAux rest (i + 1) v i else argmaxAux rest (i + 1) bv bi

/-- Argmax over one logits row; `-1` for an empty row (every finite value
beats the initial `-Infinity`). -/
def argmaxIdx : List ℚ → ℤ
  | [] => -1
  | v :: rest => argmaxAux rest 1 v 0

/-- The verification loop of `verifyDraftTokens`: row `i` of the logits
is compared against draft token `i + 1`; on a match the token is pushed,
on the first mismatch (or when either sequence runs out) the loop
stops. -/
def verifyLoop : List (List ℚ) → List ℤ → List ℤ
  | row :: rows, d :: ds =>
    if argmaxIdx row = d then d :: verifyLoop rows ds else []
  | _, _ => []

/-- `verifyDraftTokens` (success path): given the logits rows of the one
forward pass (sequence dimension `logits.length = seqLen`) and the draft
tokens, compare rows `0 … seqLen − 2` with draft tokens `1 …` and build
the statistics record.  The JS `draftTokens.length - 1 || 1` denominator
is `1` exactly when `draftTokens.length - 1` is `0`. -/
def verifyDraftTokens (logits : List (List ℚ)) (draftTokens : List ℤ) :
    VerifyResult :=
  let verified := verifyLoop (logits.take (logits.length - 1)) (draftTokens.drop 1)
  let hits : ℤ := verified.length
  let total : ℤ := (draftTokens.length : ℤ) - 1
  { verifiedTokens := verified
    hitRate := (hits : ℚ) / ((if total = 0 then 1 else total : ℤ) : ℚ)
    verifiedCount := hits
    totalCount := total }

/-- The zero statistics returned by the `catch` branch of
`verifyDraftTokens`. -/
def zeroVerifyResult : VerifyResult :=
  { verifiedTokens := [], hitRate := 0, verifiedCount := 0, totalCount := 0 }

/-- `verifyDraftTokens` including its `try/catch`: any error in the
forward pass yields the zero statistics. -/
def verifyDraftTokensE (forward : Except String (List (List ℚ)))
    (draftTokens : List ℤ) : VerifyResult :=
  match forward with
  | .error _ => zeroVerifyResult
  | .ok logits => verifyDraftTokens logits draftTokens

/-! ## Chunk-tier generation (`processChunk`): decoder start selection -/

/-- What the final generation call of `processChunk` starts from:
either an explicit `decoder_input_ids` prefix or the empty decoder
prompt of plain `model.generate`. -/
inductive DecoderStart where
  | fromPrefix (tokens : List ℤ)
  | emptyPrompt
deriving DecidableEq, Repr

/-- The decoder input selected by `processChunk` for the final
generation: with a non-empty draft buffer on a tier of level `> 1`, the
draft is verified (against the possibly failing forward pass); when at
least one token is verified, generation starts from
`[draft[0], ...verified]` — unless that speculative generation call
itself throws (`specGenFails`), in which case the `catch` falls back to
a normal generation with an empty decoder prompt.  In every other case
generation is normal. -/
def chunkDecoderStart (level : ℕ) (draft : List ℤ)
    (forward : Except String (List (List ℚ))) (specGenFails : Bool) :
    DecoderStart :=
  if draft ≠ [] ∧ 1 < level then
    let res := verifyDraftTokensE forward draft
    if 0 < res.verifiedTokens.length then
      if specGenFails then .emptyPrompt
      else .fromPrefix (draft.headI :: res.verifiedTokens)
    else .emptyPrompt
  else .emptyPrompt

/-! ## Stable-sort toolkit

`List.insertionSort` is the model of JS `Array.prototype.sort`.  These
lemmas capture the two facts the merge-engine proofs need: filtering
commutes with a stable sort, and sorting `l ++ [a]` equals sorting `l`
and then inserting `a` after the run of elements `≼ a`. -/

section SortToolkit

variable {α : Type*} (r : α → α → Prop) [DecidableRel r]

/-- Insert `a` after every element `b` with `r b a` (dual to
`List.orderedInsert`, which inserts before the first `b` with `r a b`).
This is where a stable sort puts a newly appended element. -/
def oiLast (a : α) : List α → List α
  | [] => [a]
  | b :: l => if r b a then b :: oiLast a l else a :: b :: l

theorem oiLast_nil (a : α) : oiLast r a [] = [a] := rfl

theorem oiLast_cons (a b : α) (l : List α) :
    oiLast r a (b :: l) = if r b a then b :: oiLast r a l else a :: b :: l := rfl

variable [IsTotal α r] [IsTrans α r]

theorem orderedInsert_oiLast_comm (x a : α) :
    ∀ s : List α, (oiLast r a s).orderedInsert r x = oiLast r a (s.orderedInsert r x)
  | [] => by by_cases h : r x a <;> simp [oiLast, List.orderedInsert, h]
  | b :: t => by
    by_cases hba : r b a
    · by_cases hxb : r x b
      · have hxa : r x a := trans_of r hxb hba
        simp [oiLast, List.orderedInsert, hba, hxb, hxa]
      · simp only [oiLast, List.orderedInsert, if_pos hba, if_neg hxb]
        rw [orderedInsert_oiLast_comm x a t]
    · by_cases hxb : r x b
      · by_cases hxa : r x a
        · simp [oiLast, List.orderedInsert, hba, hxb, hxa]
        · simp [oiLast, List.orderedInsert, hba, hxb, hxa]
      · have hxa : ¬r x a := fun hxa =>
          hxb (trans_of r hxa ((total_of r b a).resolve_left hba))
        simp [oiLast, List.orderedInsert, hba, hxb, hxa]

theorem insertionSort_append_singleton (a : α) :
    ∀ l : List α, List.insertionSort r (l ++ [a]) = oiLast r a (List.insertionSort r l)
  | [] => by simp [List.insertionSort, oiLast]
  | x :: l => by
    show List.orderedInsert r x (List.insertionSort r (l ++ [a])) = _
    rw [insertionSort_append_singleton a l, orderedInsert_oiLast_comm]
    rfl

theorem filter_orderedInsert_of_sorted (p : α → Bool) (a : α) :
    ∀ s : List α, s.Sorted r →
      (s.orderedInsert r a).filter p =
        if p a then (s.filter p).orderedInsert r a else s.filter p
  | [], _ => by by_cases h : p a <;> simp [List.orderedInsert, h]
  | b :: t, hs => by
    by_cases hab : r a b
    · by_cases hpb : p b
      · by_cases hpa : p a <;>
          simp [List.orderedInsert, hab, hpa, hpb, List.filter_cons]
      · by_cases hpa : p a
        · simp only [List.orderedInsert, if_pos hab, List.filter_cons, hpa, hpb,
            if_pos, if_neg, Bool.false_eq_true, ite_false, ite_true]
          cases hft : (t.filter p) with
          | nil => simp [List.orderedInsert]
          | cons c u =>
            have hc : c ∈ t.filter p := by rw [hft]; exact List.mem_cons_self c u
            have hbc : r b c := List.rel_of_sorted_cons hs c (List.mem_of_mem_filter hc)
            simp [List.orderedInsert, trans_of r hab hbc]
        · simp [List.orderedInsert, hab, hpa, hpb, List.filter_cons]
    · have ih := filter_orderedInsert_of_sorted p a t hs.of_cons
      by_cases hpb : p b
      · by_cases hpa : p a <;>
          simp [List.orderedInsert, hab, hpa, hpb, List.filter_cons, ih]
      · by_cases hpa : p a <;>
          simp [List.orderedInsert, hab, hpa, hpb, List.filter_cons, ih]

theorem filter_insertionSort (p : α → Bool) :
    ∀ l : List α, (List.insertionSort r l).filter p = List.insertionSort r (l.filter p)
  | [] => by simp [List.insertionSort]
  | x :: l => by
    by_cases hpx : p x
    · simp only [List.insertionSort, List.filter_cons, hpx, if_pos]
      rw [filter_orderedInsert_of_sorted r p x _ (List.sorted_insertionSort r l),
        if_pos hpx, filter_insertionSort p l]
    · simp only [List.insertionSort, List.filter_cons, hpx]
      rw [filter_orderedInsert_of_sorted r p x _ (List.sorted_insertionSort r l),
        if_neg (by simp [hpx]), filter_insertionSort p l]
      simp [hpx]

end SortToolkit

/-- The sort relation of `sortByStart` is total. -/
instance : IsTotal Segment (fun a b => a.start ≤ b.start) :=
  ⟨fun _ _ => le_total _ _⟩

/-- The sort relation of `sortByStart` is transitive. -/
instance : IsTrans Segment (fun a b => a.start ≤ b.start) :=
  ⟨fun _ _ _ h h' => le_trans h h'⟩

/-! ## Merge-engine helper lemmas -/

theorem overlapQ_comm (a b : Segment) : overlapQ a b = overlapQ b a := by
  simp [overlapQ, min_comm, max_comm]

theorem overlapQ_self (n : Segment) : overlapQ n n = n.end_s - n.start := by
  simp [overlapQ]

theorem keepSegment_eq_true_iff (n s : Segment) :
    keepSegment n s = true ↔
      s.isSeparator = true ∨ overlapQ s n ≤ eps ∨ n.level < s.level := by
  unfold keepSegment
  by_cases h1 : s.isSeparator
  · simp [h1]
  · by_cases h2 : eps < overlapQ s n
    · by_cases h3 : n.level < s.level
      · simp [h1, h2, h3]
      · simp [h1, h2, h3, not_le.mpr h2]
    · simp [h1, h2, not_lt.mp h2]

theorem keepSegment_eq_false_iff (n s : Segment) :
    keepSegment n s = false ↔
      s.isSeparator = false ∧ eps < overlapQ s n ∧ s.level ≤ n.level := by
  unfold keepSegment
  by_cases h1 : s.isSeparator
  · simp [h1]
  · by_cases h2 : eps < overlapQ s n
    · by_cases h3 : n.level < s.level
      · simp [h1, h2, h3, not_le.mpr h3]
      · simp [h1, h2, h3, Nat.le_of_not_lt h3]
    · simp [h1, h2]

theorem coveredByBetter_eq_true_iff (n : Segment) (l : List Segment) :
    coveredByBetter n l = true ↔
      ∃ s ∈ l, s.isSeparator = false ∧ eps < overlapQ s n ∧ n.level < s.level := by
  unfold coveredByBetter
  rw [List.any_eq_true]
  apply exists_congr
  intro s
  by_cases h : s.isSeparator <;> simp [h]

/-! ## C1: the insertion procedure refines the spec's three-step description -/

/-- C1: for every new segment `n` (in particular every non-separator
segment) and every transcript, `Transcriber.mergeSegment` performs
exactly the spec's insertion procedure: (1) remove every non-separator
segment `s` with `overlap(s, n) > 0.1` and `s.level ≤ n.level`,
(2) reject `n` if a non-separator segment with `overlap > 0.1` and
strictly higher level remains, (3) otherwise insert `n` and re-sort by
start time; separators are never considered in the overlap tests and
never removed. -/
theorem mergeSegment_eq_specInsert (segs : List Segment) (n : Segment) :
    mergeSegment segs n = specInsert segs n := by
  have hpred : ∀ s : Segment, keepSegment n s =
      !(!s.isSeparator && decide (eps < overlapQ s n) && decide (s.level ≤ n.level)) := by
    intro s
    by_cases h1 : s.isSeparator
    · simp [keepSegment, h1]
    · by_cases h2 : eps < overlapQ s n
      · by_cases h3 : n.level < s.level
        · simp [keepSegment, h1, h2, h3, not_le.mpr h3]
        · simp [keepSegment, h1, h2, h3, Nat.le_of_not_lt h3]
      · simp [keepSegment, h1, h2]
  have hcov : ∀ l : List Segment, coveredByBetter n l =
      l.any fun s =>
        !s.isSeparator && decide (eps < overlapQ s n) && decide (n.level < s.level) := by
    intro l
    unfold coveredByBetter
    congr 1
    funext s
    by_cases h : s.isSeparator <;> simp [h]
  have hfil : segs.filter (keepSegment n) = segs.filter fun s =>
      !(!s.isSeparator && decide (eps < overlapQ s n) && decide (s.level ≤ n.level)) :=
    List.filter_congr fun s _ => hpred s
  simp only [mergeSegment, specInsert, hfil, hcov]

/-! ## C2: the transcript invariant holds for every insertion sequence -/

/-- The pairwise no-overlap relation of the invariant is symmetric. -/
theorem overlapRel_symm :
    Symmetric fun a b : Segment =>
      a.isSeparator = false → b.isSeparator = false → overlapQ a b ≤ eps := by
  intro a b h hb ha
  rw [overlapQ_comm]
  exact h ha hb

/-- One merge step preserves the transcript invariant. -/
theorem transcriptInv_mergeSeg {T : List Segment} (hT : TranscriptInv T)
    (n : Segment) : TranscriptInv (mergeSeg T n) := by
  unfold mergeSeg mergeSegment
  set K := T.filter (keepSegment n) with hK
  have hKsub : List.Sublist K T := List.filter_sublist T
  by_cases hc : coveredByBetter n K
  · simp only [hc, if_true]
    exact ⟨hT.1.sublist hKsub, hT.2.sublist hKsub⟩
  · simp only [hc, if_false, Bool.false_eq_true]
    refine ⟨List.sorted_insertionSort _ _, ?_⟩
    refine ((List.perm_insertionSort _ _).pairwise_iff (fun h => overlapRel_symm h)).mpr ?_
    rw [List.pairwise_append]
    refine ⟨hT.2.sublist hKsub, List.pairwise_singleton _ _, ?_⟩
    intro s hs b hb
    rw [List.mem_singleton] at hb
    subst hb
    intro hssep _
    rcases (keepSegment_eq_true_iff b s).mp (List.of_mem_filter hs) with h | h | h
    · rw [hssep] at h; cases h
    · exact h
    · by_contra hov
      exact hc ((coveredByBetter_eq_true_iff b K).mpr
        ⟨s, hs, hssep, not_le.mp hov, h⟩)

/-- C2: every transcript produced by a sequence of insertions through the
merge engine is sorted by start time, and no two of its non-separator
segments overlap by more than `0.1` (hence, vacuously, every pair of
non-separator segments with overlap `> 0.1` has equal level). -/
theorem mergeAll_transcriptInv (ns : List Segment) : TranscriptInv (mergeAll ns) := by
  have step : ∀ (ms : List Segment) (T : List Segment),
      TranscriptInv T → TranscriptInv (ms.foldl mergeSeg T) := by
    intro ms
    induction ms with
    | nil => exact fun T hT => hT
    | cons m ms ih =>
      intro T hT
      exact ih _ (transcriptInv_mergeSeg hT m)
  exact step ns [] ⟨List.sorted_nil, List.Pairwise.nil⟩

/-- The two branches of `mergeSegment`, as rewriting lemmas. -/
theorem mergeSeg_eq_of_covered {T : List Segment} {n : Segment}
    (hc : coveredByBetter n (T.filter (keepSegment n)) = true) :
    mergeSeg T n = T.filter (keepSegment n) := by
  unfold mergeSeg mergeSegment
  simp [hc]

theorem mergeSeg_eq_of_not_covered {T : List Segment} {n : Segment}
    (hc : coveredByBetter n (T.filter (keepSegment n)) = false) :
    mergeSeg T n = sortByStart (T.filter (keepSegment n) ++ [n]) := by
  unfold mergeSeg mergeSegment
  simp [hc]

/-- Filtering with the same predicate twice filters once. -/
theorem filter_keepSegment_idem (n : Segment) (T : List Segment) :
    (T.filter (keepSegment n)).filter (keepSegment n) = T.filter (keepSegment n) := by
  rw [List.filter_filter]
  exact List.filter_congr fun s _ => Bool.and_self _

/-- `coveredByBetter` only depends on the members of the list. -/
theorem coveredByBetter_sortByStart (n : Segment) (l : List Segment) :
    coveredByBetter n (sortByStart l) = coveredByBetter n l := by
  apply Bool.eq_iff_iff.mpr
  rw [coveredByBetter_eq_true_iff, coveredByBetter_eq_true_iff]
  constructor
  · rintro ⟨s, hs, hp⟩
    exact ⟨s, (List.mem_insertionSort _).mp hs, hp⟩
  · rintro ⟨s, hs, hp⟩
    exact ⟨s, (List.mem_insertionSort _).mpr hs, hp⟩

/-! ## C8: double insertion -/

/-- C8 counterexample: inserting the same 0.05-second segment twice into
an empty transcript duplicates it — the second insertion is *not* a
no-op for segments of duration at most `0.1`, because such a segment
does not overlap its own earlier copy by more than `0.1` and therefore
does not evict it. -/
theorem mergeSeg_not_idempotent_short :
    mergeSeg (mergeSeg [] ⟨0, mkRat 1 20, "hello", 2, false⟩)
        ⟨0, mkRat 1 20, "hello", 2, false⟩ ≠
      mergeSeg [] ⟨0, mkRat 1 20, "hello", 2, false⟩ := by
  norm_num [mergeSeg, mergeSegment, keepSegment, coveredByBetter, sortByStart, overlapQ,
    eps, List.insertionSort, List.orderedInsert]

/-- C8 (amended): inserting a non-separator segment `n` twice yields the
same transcript as inserting it once, *provided* `n`'s duration exceeds
`0.1` (so that the second insertion evicts the first copy under the
equal-level dominance rule).  For durations at most `0.1` the second
insertion duplicates the segment (`mergeSeg_not_idempotent_short`). -/
theorem mergeSeg_idempotent (T : List Segment) (n : Segment)
    (hsep : n.isSeparator = false) (hdur : eps < n.end_s - n.start) :
    mergeSeg (mergeSeg T n) n = mergeSeg T n := by
  have hkn : keepSegment n n = false :=
    (keepSegment_eq_false_iff n n).mpr
      ⟨hsep, by rwa [overlapQ_self], le_refl _⟩
  have hidem := filter_keepSegment_idem n T
  cases hc : coveredByBetter n (T.filter (keepSegment n))
  · have h1 : mergeSeg T n = sortByStart (T.filter (keepSegment n) ++ [n]) :=
      mergeSeg_eq_of_not_covered hc
    rw [h1]
    have hfilS : (sortByStart (T.filter (keepSegment n) ++ [n])).filter (keepSegment n) =
        sortByStart (T.filter (keepSegment n)) := by
      unfold sortByStart
      rw [filter_insertionSort, List.filter_append]
      simp only [List.filter_cons, hkn, Bool.false_eq_true, ite_false, List.filter_nil,
        List.append_nil]
      rw [hidem]
    have hcov2 : coveredByBetter n
        ((sortByStart (T.filter (keepSegment n) ++ [n])).filter (keepSegment n)) = false := by
      rw [hfilS, coveredByBetter_sortByStart, hc]
    rw [mergeSeg_eq_of_not_covered hcov2, hfilS]
    unfold sortByStart
    rw [insertionSort_append_singleton, insertionSort_append_singleton,
      (List.sorted_insertionSort _ _).insertionSort_eq]
  · have h1 : mergeSeg T n = T.filter (keepSegment n) := mergeSeg_eq_of_covered hc
    rw [h1]
    have hcov2 : coveredByBetter n
        ((T.filter (keepSegment n)).filter (keepSegment n)) = true := by
      rw [hidem, hc]
    rw [mergeSeg_eq_of_covered hcov2, hidem]

/-! ## C10: a rejected segment still removes dominated segments, silently -/

/-- C10: when the new non-separator segment `n` overlaps (by more than
`0.1`) both a strictly higher-level segment and at least one segment of
level `≤ n.level`, `mergeSegment` rejects `n` yet has already removed
the lower/equal-level overlapping segments, the transcript changes, and
no `emitUpdate` transcript event is emitted for the call. -/
theorem mergeSegment_reject_still_removes (T : List Segment) (n : Segment)
    (hhigh : ∃ s ∈ T, s.isSeparator = false ∧ eps < overlapQ s n ∧ n.level < s.level)
    (hlow : ∃ s ∈ T, s.isSeparator = false ∧ eps < overlapQ s n ∧ s.level ≤ n.level) :
    mergeSegment T n = (T.filter (keepSegment n), false) ∧
    (∀ s ∈ T, s.isSeparator = false → eps < overlapQ s n → s.level ≤ n.level →
      s ∉ (mergeSegment T n).1) ∧
    (mergeSegment T n).1 ≠ T ∧
    (mergeSegment T n).2 = false := by
  obtain ⟨sh, hshT, hsh⟩ := hhigh
  have hshK : sh ∈ T.filter (keepSegment n) :=
    List.mem_filter.mpr
      ⟨hshT, (keepSegment_eq_true_iff n sh).mpr (Or.inr (Or.inr hsh.2.2))⟩
  have hcov : coveredByBetter n (T.filter (keepSegment n)) = true :=
    (coveredByBetter_eq_true_iff _ _).mpr ⟨sh, hshK, hsh.1, hsh.2.1, hsh.2.2⟩
  have hmerge : mergeSegment T n = (T.filter (keepSegment n), false) := by
    unfold mergeSegment
    simp [hcov]
  have hrem : ∀ s ∈ T, s.isSeparator = false → eps < overlapQ s n →
      s.level ≤ n.level → s ∉ (mergeSegment T n).1 := by
    intro s _ h1 h2 h3 hmem
    rw [hmerge] at hmem
    have hkeep := (List.mem_filter.mp hmem).2
    rw [(keepSegment_eq_false_iff n s).mpr ⟨h1, h2, h3⟩] at hkeep
    cases hkeep
  refine ⟨hmerge, hrem, ?_, by rw [hmerge]⟩
  obtain ⟨sl, hslT, hsl⟩ := hlow
  intro heq
  exact hrem sl hslT hsl.1 hsl.2.1 hsl.2.2 (by rw [heq]; exact hslT)

/-- The threshold really is one tenth. -/
theorem eps_val : eps = 1 / 10 := by
  rw [eps, Rat.mkRat_eq_divInt, Rat.divInt_eq_div]
  norm_num

/-! ## C3: the speculative verifier -/

theorem verifyLoop_eq_takeWhile (rows : List (List ℚ)) (next : List ℤ) :
    verifyLoop rows next =
      ((rows.zip next).takeWhile fun p => decide (argmaxIdx p.1 = p.2)).map Prod.snd := by
  induction rows generalizing next with
  | nil => simp [verifyLoop]
  | cons row rows ih =>
    cases next with
    | nil => simp [verifyLoop]
    | cons d ds =>
      by_cases h : argmaxIdx row = d
      · simp [verifyLoop, h, ih]
      · simp [verifyLoop, h]

theorem zip_take_length_left {α β : Type*} :
    ∀ (l : List α) (m : List β), (l.take m.length).zip m = l.zip m
  | _, [] => by simp
  | [], _ :: _ => by simp
  | a :: l, b :: m => by
    simp [List.take_succ_cons, zip_take_length_left l m]

/-- C3: for a draft `d :: ds` (so `n = ds.length ≥ 0`) and the logits of
the single forward pass (sequence dimension `= (d :: ds).length`), the
verifier compares row `i`'s argmax with draft token `i + 1` in order,
collects matches up to the first mismatch, and returns
`verifiedCount = |verified|`, `totalCount = n`,
`hitRate = verifiedCount / max 1 n`, with `0 ≤ verifiedCount ≤ n`. -/
theorem verifyDraftTokens_spec (logits : List (List ℚ)) (d : ℤ) (ds : List ℤ)
    (h : logits.length = ds.length + 1) :
    (verifyDraftTokens logits (d :: ds)).verifiedTokens =
      ((logits.zip ds).takeWhile fun p => decide (argmaxIdx p.1 = p.2)).map Prod.snd ∧
    (verifyDraftTokens logits (d :: ds)).verifiedCount =
      ((verifyDraftTokens logits (d :: ds)).verifiedTokens.length : ℤ) ∧
    (verifyDraftTokens logits (d :: ds)).totalCount = (ds.length : ℤ) ∧
    (verifyDraftTokens logits (d :: ds)).hitRate =
      ((verifyDraftTokens logits (d :: ds)).verifiedTokens.length : ℚ) /
        ((max 1 ds.length : ℕ) : ℚ) ∧
    0 ≤ (verifyDraftTokens logits (d :: ds)).verifiedCount ∧
    (verifyDraftTokens logits (d :: ds)).verifiedCount ≤ (ds.length : ℤ) := by
  have hlen : logits.length - 1 = ds.length := by omega
  have hver : (verifyDraftTokens logits (d :: ds)).verifiedTokens =
      ((logits.zip ds).takeWhile fun p => decide (argmaxIdx p.1 = p.2)).map Prod.snd := by
    show verifyLoop (logits.take (logits.length - 1)) ((d :: ds).drop 1) = _
    rw [List.drop_one, List.tail_cons, hlen, verifyLoop_eq_takeWhile,
      zip_take_length_left]
  have hbound : (verifyDraftTokens logits (d :: ds)).verifiedTokens.length ≤
      ds.length := by
    rw [hver, List.length_map]
    refine le_trans (List.takeWhile_prefix _).length_le ?_
    rw [List.length_zip]
    exact min_le_right _ _
  have htot : (verifyDraftTokens logits (d :: ds)).totalCount = (ds.length : ℤ) := by
    show ((d :: ds).length : ℤ) - 1 = (ds.length : ℤ)
    rw [List.length_cons]
    push_cast
    ring
  refine ⟨hver, rfl, htot, ?_, Int.ofNat_nonneg _, ?_⟩
  · show ((verifyDraftTokens logits (d :: ds)).verifiedTokens.length : ℚ) /
        ((if ((d :: ds).length : ℤ) - 1 = 0 then 1
          else ((d :: ds).length : ℤ) - 1 : ℤ) : ℚ) = _
    congr 1
    rcases Nat.eq_zero_or_pos ds.length with h0 | hpos
    · simp [List.length_cons, h0]
    · have h1 : ((d :: ds).length : ℤ) - 1 = (ds.length : ℤ) := by
        rw [List.length_cons]; push_cast; ring
      rw [h1]
      have : ¬((ds.length : ℤ) = 0) := by omega
      rw [if_neg this]
      have : max 1 ds.length = ds.length := max_eq_right hpos
      rw [this]
      norm_cast
  · show ((verifyDraftTokens logits (d :: ds)).verifiedTokens.length : ℤ) ≤
      (ds.length : ℤ)
    exact_mod_cast hbound

/-- C3 witness: a concrete two-row forward pass over the draft `[5, 1]`. -/
theorem verifyDraftTokens_spec_witness :
    0 ≤ (verifyDraftTokens [[(0 : ℚ), 1], [1, 0]] [5, 1]).verifiedCount ∧
    (verifyDraftTokens [[(0 : ℚ), 1], [1, 0]] [5, 1]).verifiedCount ≤ (1 : ℤ) :=
  ⟨(verifyDraftTokens_spec [[(0 : ℚ), 1], [1, 0]] 5 [1] rfl).2.2.2.2.1,
   (verifyDraftTokens_spec [[(0 : ℚ), 1], [1, 0]] 5 [1] rfl).2.2.2.2.2⟩

/-! ## C4: error containment in the speculative path -/

/-- C4: an error in the verifier's forward pass is swallowed into the
zero statistics and leads to normal generation; in every case the final
generation of a chunk tier starts either from `[d₀] ++ verified` (with
at least one verified token) or from the empty decoder prompt — never
from any other decoder input. -/
theorem chunkDecoderStart_safe (level : ℕ) (d : ℤ) (rest : List ℤ)
    (forward : Except String (List (List ℚ))) (specGenFails : Bool) (e : String) :
    verifyDraftTokensE (.error e) (d :: rest) = zeroVerifyResult ∧
    chunkDecoderStart level (d :: rest) (.error e) specGenFails = .emptyPrompt ∧
    (chunkDecoderStart level (d :: rest) forward specGenFails = .emptyPrompt ∨
      ((verifyDraftTokensE forward (d :: rest)).verifiedTokens ≠ [] ∧
        chunkDecoderStart level (d :: rest) forward specGenFails =
          .fromPrefix (d :: (verifyDraftTokensE forward (d :: rest)).verifiedTokens))) := by
  refine ⟨rfl, ?_, ?_⟩
  · by_cases hl : 1 < level
    · simp [chunkDecoderStart, hl, verifyDraftTokensE, zeroVerifyResult]
    · simp [chunkDecoderStart, hl]
  · by_cases hl : 1 < level
    · by_cases hv : 0 < (verifyDraftTokensE forward (d :: rest)).verifiedTokens.length
      · by_cases hf : specGenFails
        · left
          simp [chunkDecoderStart, hl, hv, hf]
        · right
          refine ⟨List.length_pos.mp hv, ?_⟩
          simp [chunkDecoderStart, hl, hv, hf]
      · left
        simp [chunkDecoderStart, hl, hv]
    · left
      simp [chunkDecoderStart, hl]

/-- C4 witness: a failing forward pass on tier 3 falls back to the empty
decoder prompt. -/
theorem chunkDecoderStart_safe_witness :
    chunkDecoderStart 3 [50258, 7] (.error "boom") false = .emptyPrompt :=
  (chunkDecoderStart_safe 3 50258 [7] (.error "boom") false "boom").2.1

/-! ## C5: header stripping in the draft-token protocol -/

/-- C5: on the append path (every tier except level 2), a non-empty
update into a non-empty DraftBuffer appends the new chunk with its
maximal leading run of header tokens (`50257 ≤ t < 50364`) stripped;
the first chunk into an empty buffer keeps its header; and the two
deliveries `[50258, 50259, 50359, 50363, X, Y]` then
`[50258, 50259, 50359, 50363, Z]` leave the buffer equal to
`[50258, 50259, 50359, 50363, X, Y, Z]`. -/
theorem draftTokensUpdate_strip (level : ℕ) (hlevel : level ≠ 2) :
    (∀ buf tokens : List ℤ, buf ≠ [] → tokens ≠ [] →
      draftTokensUpdate level buf tokens = buf ++ tokens.dropWhile isHeaderToken) ∧
    (∀ tokens : List ℤ, draftTokensUpdate level [] tokens = tokens) ∧
    (∀ t : ℤ, isHeaderToken t = true ↔ 50257 ≤ t ∧ t < 50364) ∧
    ∀ X Y Z : ℤ, isHeaderToken Z = false →
      draftTokensUpdate level
          (draftTokensUpdate level [] [50258, 50259, 50359, 50363, X, Y])
          [50258, 50259, 50359, 50363, Z] =
        [50258, 50259, 50359, 50363, X, Y, Z] := by
  have hstrip : ∀ buf tokens : List ℤ, buf ≠ [] → tokens ≠ [] →
      draftTokensUpdate level buf tokens = buf ++ tokens.dropWhile isHeaderToken := by
    intro buf tokens hb ht
    simp [draftTokensUpdate, ht, hlevel, hb, stripHeader]
  have hempty : ∀ tokens : List ℤ, draftTokensUpdate level [] tokens = tokens := by
    intro tokens
    by_cases ht : tokens = []
    · simp [draftTokensUpdate, ht]
    · simp [draftTokensUpdate, ht, hlevel]
  refine ⟨hstrip, hempty, fun t => by simp [isHeaderToken], ?_⟩
  intro X Y Z hZ
  rw [hempty]
  rw [hstrip _ _ (by simp) (by simp)]
  have h1 : isHeaderToken 50258 = true := by decide
  have h2 : isHeaderToken 50259 = true := by decide
  have h3 : isHeaderToken 50359 = true := by decide
  have h4 : isHeaderToken 50363 = true := by decide
  simp [List.dropWhile_cons, h1, h2, h3, h4, hZ]

/-- C5 witness: the concrete L3 scenario with content tokens 11, 12, 13. -/
theorem draftTokensUpdate_strip_witness :
    draftTokensUpdate 3 (draftTokensUpdate 3 [] [50258, 50259, 50359, 50363, 11, 12])
        [50258, 50259, 50359, 50363, 13] = [50258, 50259, 50359, 50363, 11, 12, 13] :=
  (draftTokensUpdate_strip 3 (by decide)).2.2.2 11 12 13 (by decide)

/-! ## C6: draft propagation is hardcoded to the L1→L2 hop -/

/-- C6 counterexample: with all four tiers enabled, a level-2 segment
output carrying tokens dispatches no draft-token update, although the
adjacent downstream tier 3 is enabled — propagation does not happen on
every adjacent hop. -/
theorem segmentDraftDispatch_no_hop23 :
    segmentDraftDispatch [1, 2, 3, 4] 2 true = none ∧ (3 : ℕ) ∈ [1, 2, 3, 4] := by
  decide

/-- C6 (amended): the orchestrator dispatches a draft-token update iff
the output carries tokens, the upstream tier is level 1, and a level-2
worker is enabled — i.e. only on the L1→L2 hop, and always to level 2. -/
theorem segmentDraftDispatch_iff (workerLevels : List ℕ) (level : ℕ)
    (hasTokens : Bool) (d : ℕ) :
    segmentDraftDispatch workerLevels level hasTokens = some d ↔
      hasTokens = true ∧ level = 1 ∧ 2 ∈ workerLevels ∧ d = 2 := by
  unfold segmentDraftDispatch
  constructor
  · intro h
    by_cases h1 : hasTokens = true ∧ level ≠ 0
    · rw [if_pos h1] at h
      by_cases h2 : level + 1 = 2 ∧ 2 ∈ workerLevels
      · rw [if_pos h2] at h
        obtain ⟨h21, h22⟩ := h2
        exact ⟨h1.1, by omega, h22, (Option.some.inj h).symm⟩
      · rw [if_neg h2] at h
        cases h
    · rw [if_neg h1] at h
      cases h
  · rintro ⟨hT, rfl, hW, rfl⟩
    rw [if_pos ⟨hT, by omega⟩, if_pos ⟨rfl, hW⟩]

/-- C6 amended-claim witness: L1 output with tokens is dispatched to the
enabled level-2 worker. -/
theorem segmentDraftDispatch_iff_witness :
    segmentDraftDispatch [1, 2] 1 true = some 2 :=
  (segmentDraftDispatch_iff [1, 2] 1 true 2).mpr ⟨rfl, rfl, by decide, rfl⟩

/-! ## C7: commit -/

/-- C7 counterexample: committing with an empty transcript appends
nothing — no separator is produced in that case. -/
theorem commitSegments_nil : commitSegments [] = [] := rfl

/-- C7 (amended): on commit every tier clears its audio and draft
buffers while preserving the processed-prefix counter (so a commit with
an already-empty audio buffer is a no-op at the audio layer), and the
orchestrator appends a separator segment (level 0,
start = end = the last segment's end time) iff the transcript is
non-empty; on an empty transcript no separator is appended. -/
theorem commit_effects :
    (∀ st : WorkerState, (workerCommit st).audioBuffer = [] ∧
      (workerCommit st).currentDraftTokens = [] ∧
      (workerCommit st).processedSamples = st.processedSamples) ∧
    (∀ st : WorkerState, st.audioBuffer = [] →
      workerCommit st = { st with currentDraftTokens := [] }) ∧
    (∀ (segs : List Segment) (s : Segment), segs.getLast? = some s →
      commitSegments segs =
        segs ++ [{ start := s.end_s, end_s := s.end_s, text := "---", level := 0,
                   isSeparator := true }]) ∧
    commitSegments [] = [] := by
  refine ⟨fun st => ⟨rfl, rfl, rfl⟩, ?_, ?_, rfl⟩
  · rintro ⟨a, dr, p⟩ h
    simp only at h
    simp [workerCommit, h]
  · intro segs s h
    simp [commitSegments, h]

/-- C7 witness: a concrete worker state with empty audio buffer and
pending draft tokens, and the empty-transcript commit. -/
theorem commit_effects_witness :
    workerCommit ⟨[], [5], 3⟩ = (⟨[], [], 3⟩ : WorkerState) ∧
    commitSegments [] = [] :=
  ⟨commit_effects.2.1 ⟨[], [5], 3⟩ rfl, commit_effects.2.2.2⟩

/-! ## C9: crash handling restarts on every crash -/

/-- A concrete stored configuration for the counterexample. -/
def c9Cfg : StoredConfig := ⟨2, "en", "webgpu", "whisper-tiny", none⟩

/-- A concrete orchestrator state with a live tier-2 worker and its
stored configuration. -/
def c9State : OrchState :=
  { workers := [⟨2, c9Cfg⟩]
    workerConfigs := fun l => if l = 2 then some c9Cfg else none }

/-- C9 counterexample: after a first crash of tier 2 has been restarted,
a second crash of the same tier is restarted again (with the same stored
configuration) instead of being surfaced as fatal. -/
theorem secondCrash_restartsAgain :
    (handleWorkerError (handleWorkerError c9State 2).1 2).2 = some c9Cfg := rfl

/-- C9 (amended): every uncaught crash of a tier whose configuration is
stored triggers a restart with the originally stored configuration; the
store survives the restart, so any number of successive crashes each
restart the worker the same way — there is no once-only limit and no
fatal surfacing. -/
theorem crash_always_restarts (st : OrchState) (level : ℕ) (c : StoredConfig)
    (h : st.workerConfigs level = some c) :
    (handleWorkerError st level).2 = some c ∧
    (handleWorkerError st level).1.workerConfigs = st.workerConfigs ∧
    ∀ n, ∀ a ∈ crashTrace st level n, a = some c := by
  have hstep : ∀ st' : OrchState, st'.workerConfigs level = some c →
      (handleWorkerError st' level).2 = some c ∧
      (handleWorkerError st' level).1.workerConfigs = st'.workerConfigs := by
    intro st' h'
    unfold handleWorkerError restartWorker
    rw [h']
    exact ⟨rfl, rfl⟩
  have htrace : ∀ n (st' : OrchState), st'.workerConfigs level = some c →
      ∀ a ∈ crashTrace st' level n, a = some c := by
    intro n
    induction n with
    | zero =>
      intro st' h' a ha
      simp [crashTrace] at ha
    | succ n ih =>
      intro st' h' a ha
      simp only [crashTrace] at ha
      rcases List.mem_cons.mp ha with rfl | ha'
      · exact (hstep st' h').1
      · exact ih _ (by rw [(hstep st' h').2]; exact h') a ha'
  exact ⟨(hstep st h).1, (hstep st h).2, fun n => htrace n st h⟩

/-- C9 amended-claim witness: the concrete tier-2 state restarts with its
stored configuration. -/
theorem crash_always_restarts_witness :
    (handleWorkerError c9State 2).2 = some c9Cfg :=
  (crash_always_restarts c9State 2 c9Cfg rfl).1

/-! ## Remaining witnesses -/

/-- C8 amended-claim witness: a 5-second segment inserted twice into the
empty transcript. -/
theorem mergeSeg_idempotent_witness :
    mergeSeg (mergeSeg [] ⟨0, 5, "hello", 2, false⟩) ⟨0, 5, "hello", 2, false⟩ =
      mergeSeg [] ⟨0, 5, "hello", 2, false⟩ :=
  mergeSeg_idempotent [] ⟨0, 5, "hello", 2, false⟩ rfl (by norm_num [eps_val])

/-- C10 witness: a level-2 segment overlapping both the level-4 segment
`[0, 20]` and the level-1 segment `[0, 5]` is rejected without an event
while the level-1 segment is removed. -/
theorem mergeSegment_reject_still_removes_witness :
    (mergeSegment [⟨0, 20, "hi", 4, false⟩, ⟨0, 5, "lo", 1, false⟩]
        ⟨0, 6, "n", 2, false⟩).2 = false ∧
    (mergeSegment [⟨0, 20, "hi", 4, false⟩, ⟨0, 5, "lo", 1, false⟩]
        ⟨0, 6, "n", 2, false⟩).1 ≠
      [⟨0, 20, "hi", 4, false⟩, ⟨0, 5, "lo", 1, false⟩] :=
  ⟨(mergeSegment_reject_still_removes _ _
      ⟨⟨0, 20, "hi", 4, false⟩, List.mem_cons_self _ _, rfl,
        by norm_num [overlapQ, eps_val], by norm_num⟩
      ⟨⟨0, 5, "lo", 1, false⟩, List.mem_cons_of_mem _ (List.mem_cons_self _ _), rfl,
        by norm_num [overlapQ, eps_val], by norm_num⟩).2.2.2,
   (mergeSegment_reject_still_removes _ _
      ⟨⟨0, 20, "hi", 4, false⟩, List.mem_cons_self _ _, rfl,
        by norm_num [overlapQ, eps_val], by norm_num⟩
      ⟨⟨0, 5, "lo", 1, false⟩, List.mem_cons_of_mem _ (List.mem_cons_self _ _), rfl,
        by norm_num [overlapQ, eps_val], by norm_num⟩).2.2.1⟩

end LiveTranscribe
